import Mathlib

/-!
# Verification of the gmc graphical-model runtime

A shallow embedding in Lean 4 of the core of `gmc` (Go Monte Carlo), a
probabilistic programming library written in Go.  The embedding follows the
Go sources file by file:

* `interfaces.go` / `node` package: random-variable nodes (`RNode`) and
  value nodes; the `OutOfBoundsErr` recoverable error.
* `continuous.go`, `discrete.go`: the `SetValue` support checks for the
  Normal, Beta, Bernoulli and Binomial families.
* `static.go`: the deterministic gates (constant, sum, product, logistic,
  logit, switch).
* the `Model` file: the three node collections, `Observe`, `LogProb`,
  `SamplePriorPredictive`, `SamplePosteriorPredictive` and the factory
  methods.

Modelling conventions:

* Go `float64` values are modelled as `ℚ`; the transcendental library
  functions `math.Exp` / `math.Log` and the distribution collaborators
  (`distuv.*`, external to this repository per the design) are abstract
  parameters, bundled in the `Dists` structure.
* Go pointers to nodes are modelled as indices (`NodeId`) into a heap
  (`List HNode`) owned by the model; in-place mutation becomes functional
  update of the heap.
* A Go `panic` (`log.Panicf`) is modelled as `Option.none` / a `.panic`
  result; the recoverable `*OutOfBoundsErr` keeps its own type.
* The shared random source `*rand.Rand` is modelled as an abstract state
  `σ` threaded through every draw, exactly as the single `m.Src` is
  threaded through every node in the Go code.
-/

namespace GMC

/-- Go `math.Round`: round half away from zero (`discrete.go` uses it to
validate Bernoulli and Binomial values).  Stated with the executable
`Rat.floor` so that witnesses evaluate by kernel reduction. -/
def goRound (q : ℚ) : ℤ :=
  if q < 0 then -(Rat.floor (-q + 1/2)) else Rat.floor (q + 1/2)

theorem ratFloor_eq_intFloor (q : ℚ) : Rat.floor q = ⌊q⌋ := by
  rw [Rat.floor_def, Rat.floor_def']

theorem goRound_of_nonneg {q : ℚ} (h : 0 ≤ q) : goRound q = ⌊q + 1/2⌋ := by
  unfold goRound
  rw [if_neg (not_lt.2 h), ratFloor_eq_intFloor]

/-- Go `fmt.Sprintf("%f", x)`: fixed-point rendering with six decimals, as
used by `Beta.SetValue` to name the offending value in its error message.
(Ties at the seventh decimal are rounded away from zero here; for the binary
floats the Go code formats, such ties do not arise.) -/
def goFmtF (q : ℚ) : String :=
  let t : ℤ := Rat.floor (|q| * 1000000 + 1/2)
  let ip : ℕ := t.toNat / 1000000
  let fr : ℕ := t.toNat % 1000000
  let frs : String := toString fr
  (if q < 0 then "-" else "") ++ toString ip ++ "."
    ++ String.mk (List.replicate (6 - frs.length) '0') ++ frs

/-- `OutOfBoundsErr` from `continuous.go`: the recoverable error returned by
`SetValue` when a proposed value is outside a variable's support. -/
structure OutOfBoundsErr where
  msg : String
  deriving DecidableEq, Repr

/-- Node identifier: a Go pointer to a node, modelled as an index into the
model's heap.  Nodes are created only through the model's factory methods,
so every identifier held by client code addresses an already-created node. -/
abbrev NodeId := ℕ

/-- The distribution attached to a stochastic / observed node, with the
parameter nodes it references (`Mu`/`Sigma`, `Alpha`/`Beta`, `P`) and, for
Binomial, the trial count `N` fixed at construction. -/
inductive Dist where
  | normal (mu sigma : NodeId)
  | beta (alpha beta : NodeId)
  | bernoulli (p : NodeId)
  | binomial (N : ℚ) (p : NodeId)
  deriving DecidableEq, Repr

/-- A random-variable node (`RandVar` in `interfaces.go`): a name, a mutable
current value, and its distribution family. -/
structure RNode where
  name : String
  value : ℚ
  dist : Dist
  deriving DecidableEq, Repr

/-- A deterministic value node (`static.go`): constant, sum, product,
logistic, logit or switch gate.  Gates hold references to their input
nodes and are recomputed on every read. -/
inductive DNode where
  | const (c : ℚ)
  | sum (x y : NodeId)
  | prod (x y : NodeId)
  | logistic (x : NodeId)
  | logit (x : NodeId)
  | sw (threshold : ℚ) (s l r : NodeId)
  deriving DecidableEq, Repr

/-- A heap cell: either a deterministic node or a random-variable node. -/
inductive HNode where
  | det (d : DNode)
  | rv (r : RNode)
  deriving DecidableEq, Repr

abbrev Heap := List HNode

/-- Look up a random-variable node; `none` models dereferencing a pointer
that is not a `RandVar`, which well-formed Go client code cannot produce. -/
def rnodeAt (h : Heap) (id : NodeId) : Option RNode :=
  match h.get? id with
  | some (.rv r) => some r
  | _ => none

/-- The support check performed by each family's `SetValue`
(`continuous.go` lines 62-64 and 110-118, `discrete.go` lines 51-59 and
104-112).  Returns the `OutOfBoundsErr` exactly when the Go method does:

* Normal: never;
* Beta: when the raw value is outside `[0, 1]`;
* Bernoulli: when the rounded value is neither 0 nor 1;
* Binomial: when the rounded value is below 0 or above `N`. -/
def setErr : Dist → ℚ → Option OutOfBoundsErr
  | .normal _ _, _ => none
  | .beta _ _, v =>
    if v < 0 ∨ v > 1 then
      some ⟨"Beta is defined on [0,1], got value " ++ goFmtF v⟩
    else none
  | .bernoulli _, v =>
    if goRound v ≠ 0 ∧ goRound v ≠ 1 then
      some ⟨"A bernoulli-distributed random  variable can only take the values 0 or 1."⟩
    else none
  | .binomial N _, v =>
    if (goRound v : ℚ) < 0 ∨ (goRound v : ℚ) > N then
      some ⟨"A binomial-distributed random variable can only take the integers between 0 and N as values."⟩
    else none

/-- `SetValue` on a node: validate against the support, then store the RAW
(unrounded) value on success; on failure return the error and leave the
stored value unchanged.  Mirrors the four Go `SetValue` methods, whose
result pair (returned error, node after the call) is modelled here. -/
def RNode.setValue (r : RNode) (v : ℚ) : Option OutOfBoundsErr × RNode :=
  match setErr r.dist v with
  | some e => (some e, r)
  | none => (none, { r with value := v })

theorem RNode.setValue_name (r : RNode) (v : ℚ) : (r.setValue v).2.name = r.name := by
  unfold RNode.setValue
  cases setErr r.dist v <;> rfl

theorem RNode.setValue_dist (r : RNode) (v : ℚ) : (r.setValue v).2.dist = r.dist := by
  unfold RNode.setValue
  cases setErr r.dist v <;> rfl

theorem RNode.setValue_fst (r : RNode) (v : ℚ) : (r.setValue v).1 = setErr r.dist v := by
  unfold RNode.setValue
  cases setErr r.dist v <;> rfl

theorem RNode.setValue_of_err {r : RNode} {v : ℚ} (h : (setErr r.dist v).isSome) :
    r.setValue v = (setErr r.dist v, r) := by
  unfold RNode.setValue
  cases he : setErr r.dist v with
  | none => rw [he] at h; exact absurd h (by simp)
  | some e => rfl

theorem RNode.setValue_of_ok {r : RNode} {v : ℚ} (h : setErr r.dist v = none) :
    r.setValue v = (none, { r with value := v }) := by
  unfold RNode.setValue
  rw [h]

/-- The distribution family of a node, with parameters resolved to their
current numeric values; used to invoke the external collaborator. -/
inductive DistTag where
  | normal
  | beta
  | bernoulli
  | binomial
  deriving DecidableEq, Repr

/-- The family tag of a `Dist`. -/
def Dist.tag : Dist → DistTag
  | .normal _ _ => .normal
  | .beta _ _ => .beta
  | .bernoulli _ => .bernoulli
  | .binomial _ _ => .binomial

/-- The external collaborators, per the design's component boundary: the
distribution library (`gonum distuv`) supplying `LogProb` and `Rand` for
each family, the uniform variate used for posterior-predictive index
selection, and the `math` library's `Exp` / `Log` used by the logistic and
logit gates.  `σ` is the state of the shared random source; each draw
consumes it and returns the successor state, which models the single
mutable `*rand.Rand` owned by the model. -/
structure Dists (σ : Type) where
  logProb : DistTag → List ℚ → ℚ → ℚ
  rand : DistTag → List ℚ → σ → ℚ × σ
  uniformRand : ℚ → ℚ → σ → ℚ × σ
  mathExp : ℚ → ℚ
  mathLog : ℚ → ℚ

/-- `Value()` of the node at index `i` (`interfaces.go` `Var.Value`).
Random-variable nodes return their stored value; deterministic gates
recompute from their inputs on every read (`static.go`).  A gate's inputs
are always nodes created earlier, hence at strictly smaller indices; a
reference at or above the current index, impossible for heaps built by the
factory methods, evaluates to `none`.  `none` also models the `log.Panicf`
in `LogitGate.Value` when its input is outside `[0, 1]`.

One modelling caveat: at input exactly 1 the Go logit computes
`math.Log(1/(1-1)) = math.Log(+Inf) = +Inf`, while `1/(1-1) = 0` in `ℚ`;
the gate-level theorem for the logit claim uses the faithful `Flt`-valued
definition below instead. -/
def valueAtF (D : Dists σ) (h : Heap) : ℕ → ℕ → Option ℚ
  | 0, _ => none
  | fuel + 1, i =>
    match h.get? i with
    | none => none
    | some (.rv r) => some r.value
    | some (.det d) =>
      match d with
      | .const c => some c
      | .sum x y =>
        if x < i ∧ y < i then do
          let a ← valueAtF D h fuel x
          let b ← valueAtF D h fuel y
          pure (a + b)
        else none
      | .prod x y =>
        if x < i ∧ y < i then do
          let a ← valueAtF D h fuel x
          let b ← valueAtF D h fuel y
          pure (a * b)
        else none
      | .logistic x =>
        if x < i then do
          let v ← valueAtF D h fuel x
          if 0 ≤ v then
            pure (1 / (1 + D.mathExp (-v)))
          else
            pure (D.mathExp v / (1 + D.mathExp v))
        else none
      | .logit x =>
        if x < i then do
          let v ← valueAtF D h fuel x
          if v < 0 ∨ v > 1 then none
          else pure (D.mathLog (1 / (1 - v)))
        else none
      | .sw t s l r =>
        if s < i ∧ l < i ∧ r < i then do
          let sv ← valueAtF D h fuel s
          if sv ≤ t then valueAtF D h fuel l else valueAtF D h fuel r
        else none

/-- `Value()` of the node at index `i`, with the recursion fuelled by `i`
itself.  A gate's inputs are nodes created before the gate, hence at
strictly smaller heap indices, so a recursion depth of `i` always
suffices; a reference at or above the current index, impossible for heaps
built by the factory methods, evaluates to `none`. -/
def valueAt (D : Dists σ) (h : Heap) (i : ℕ) : Option ℚ :=
  valueAtF D h (i + 1) i

/-- The current parameter values handed to the distribution collaborator:
`Mu.Value(), Sigma.Value()` for Normal, `Alpha.Value(), Beta.Value()` for
Beta, `P.Value()` for Bernoulli, and `N, P.Value()` for Binomial, exactly
as each node's `LogProb` / `Rand` method builds its `distuv` struct. -/
def distParams (D : Dists σ) (h : Heap) : Dist → Option (List ℚ)
  | .normal mu sigma => do
    let a ← valueAt D h mu
    let b ← valueAt D h sigma
    pure [a, b]
  | .beta alpha beta => do
    let a ← valueAt D h alpha
    let b ← valueAt D h beta
    pure [a, b]
  | .bernoulli p => do
    let a ← valueAt D h p
    pure [a]
  | .binomial N p => do
    let a ← valueAt D h p
    pure [N, a]

/-- `LogProb()` of the node at `id`: the collaborator's log-density of the
node's current value given its current parameter values. -/
def nodeLogProb (D : Dists σ) (h : Heap) (id : NodeId) : Option ℚ := do
  let r ← rnodeAt h id
  let ps ← distParams D h r.dist
  pure (D.logProb r.dist.tag ps r.value)

/-- `Rand()` of the node at `id`: a fresh variate from the collaborator
given the current parameter values, consuming the shared random source. -/
def nodeRand (D : Dists σ) (h : Heap) (s : σ) (id : NodeId) : Option (ℚ × σ) := do
  let r ← rnodeAt h id
  let ps ← distParams D h r.dist
  pure (D.rand r.dist.tag ps s)

/-! ## The logit gate, at float fidelity

`LogitGate.Value` in `static.go` reads its input `v`, panics when
`v < 0 || v > 1`, and otherwise returns `math.Log(1 / (1 - v))`.  Because
the in-domain endpoint `v = 1` makes the float division produce `+Inf`
(not a panic), the gate is modelled here over a carrier that keeps that
point exact. -/

/-- The float values `1 / (1 - v)` can take for `v ∈ [0, 1]`: a finite
value, or `+Inf` at `v = 1`. -/
inductive Flt where
  | fin (q : ℚ)
  | pinf
  deriving DecidableEq, Repr

/-- Float `1 / (1 - x)`: `+Inf` when the denominator is zero (Go float
division of a positive numerator by `0`), finite otherwise. -/
def goInvOneSub (x : ℚ) : Flt :=
  if 1 - x = 0 then .pinf else .fin (1 / (1 - x))

/-- `LogitGate.Value` (`static.go` lines 73-80) as a function of the input
node's current value `x`, with `mlog` the external `math.Log`: `none`
models the `log.Panicf` call, otherwise the gate returns
`math.Log(1 / (1 - x))`. -/
def logitGateValue (mlog : Flt → Flt) (x : ℚ) : Option Flt :=
  if x < 0 ∨ x > 1 then none
  else some (mlog (goInvOneSub x))

/-! ## The Model -/

/-- A `Model`: the heap of nodes (modelling the Go objects the three
collections point into) plus the three ordered collections —
`deterministic` (constants and transforms), `observed` and `stochastic` —
and the shared random source `src`. -/
structure Model (σ : Type) where
  heap : Heap
  deterministic : List NodeId
  observed : List NodeId
  stochastic : List NodeId
  src : σ
  deriving DecidableEq, Repr

/-- `NewModel`: empty collections; `src` is the generator seeded with the
hard-coded seed 8128, abstracted here as the initial source state `s0`. -/
def NewModel (s0 : σ) : Model σ :=
  { heap := [], deterministic := [], observed := [], stochastic := [], src := s0 }

/-- `Model.IsTaken`: whether some stochastic or observed node already
carries `name` (the two linear scans of the Go method). -/
def Model.isTaken (m : Model σ) (name : String) : Bool :=
  (m.stochastic.any fun id =>
    match rnodeAt m.heap id with
    | some r => r.name == name
    | none => false) ||
  (m.observed.any fun id =>
    match rnodeAt m.heap id with
    | some r => r.name == name
    | none => false)

/-- Append a freshly constructed random-variable node and register it as
stochastic, after the `IsTaken` duplicate-name check shared by all four
stochastic factory methods; `none` models the `log.Panicf` on a duplicate
name.  Returns the model and the new node's identifier (the Go pointer). -/
def Model.registerStochastic (m : Model σ) (r : RNode) : Option (Model σ × NodeId) :=
  if m.isTaken r.name then none
  else some
    ({ m with heap := m.heap ++ [.rv r], stochastic := m.stochastic ++ [m.heap.length] },
     m.heap.length)

/-- `Model.Normal`: `NewNormal` takes the default value `mu.Value()` at
construction, then the node is checked and registered. -/
def Model.addNormal (D : Dists σ) (m : Model σ) (name : String) (mu sigma : NodeId) :
    Option (Model σ × NodeId) :=
  match valueAt D m.heap mu with
  | none => none
  | some dv => m.registerStochastic ⟨name, dv, .normal mu sigma⟩

/-- `Model.Beta`: `newBeta` uses the constant default value `0.5`. -/
def Model.addBeta (m : Model σ) (name : String) (alpha beta : NodeId) :
    Option (Model σ × NodeId) :=
  m.registerStochastic ⟨name, 1/2, .beta alpha beta⟩

/-- `Model.Bernoulli`: `NewBernoulli` uses the default value `0`. -/
def Model.addBernoulli (m : Model σ) (name : String) (p : NodeId) :
    Option (Model σ × NodeId) :=
  m.registerStochastic ⟨name, 0, .bernoulli p⟩

/-- `Model.Binomial`: fatally rejects a trial count of exactly `0.0`
before anything else; then `NewBinomial` takes the default value
`N * p.Value()` and the node is checked and registered. -/
def Model.addBinomial (D : Dists σ) (m : Model σ) (name : String) (N : ℚ) (p : NodeId) :
    Option (Model σ × NodeId) :=
  if N = 0 then none
  else
    match valueAt D m.heap p with
    | none => none
    | some pv => m.registerStochastic ⟨name, N * pv, .binomial N p⟩

/-- Append a deterministic node (the common body of `Model.Constant`,
`Model.Sum`, `Model.Prod`, `Model.Logistic`, `Model.Logit` and
`Model.Switch`, each of which builds its gate and appends it to the
deterministic collection with no checks). -/
def Model.addDet (m : Model σ) (d : DNode) : Model σ × NodeId :=
  ({ m with heap := m.heap ++ [.det d], deterministic := m.deterministic ++ [m.heap.length] },
   m.heap.length)

/-- Write a value into the node at `id`, discarding the `SetValue` error:
on rejection the node keeps its previous value and execution continues.
This is the `v.SetValue(...)` statement pattern of `Observe`,
`SamplePriorPredictive` and `SamplePosteriorPredictive`, all of which
ignore the returned error. -/
def heapSetDiscard (h : Heap) (id : NodeId) (v : ℚ) : Heap :=
  match h.get? id with
  | some (.rv r) => h.set id (.rv (r.setValue v).2)
  | _ => h

/-- The linear search of `Model.Observe` over the stochastic collection:
returns the collection with the first name-matching node removed, together
with that node's identifier; `none` when no name matches (the
`log.Panicf("the variable does not exist: ...")` case). -/
def observeSearch (h : Heap) (vname : String) : List NodeId → Option (List NodeId × NodeId)
  | [] => none
  | id :: rest =>
    if (match rnodeAt h id with
        | some r => r.name == vname
        | none => false) then
      some (rest, id)
    else
      (observeSearch h vname rest).map fun p => (id :: p.1, p.2)

/-- `Model.Observe(variable, value)`: find the stochastic node whose name
matches the argument's name, remove it from the stochastic collection,
append it to the observed collection, and call `SetValue(value)` on it
(its returned error is discarded).  `none` models the fatal "the variable
does not exist" panic. -/
def Model.observe (m : Model σ) (vid : NodeId) (value : ℚ) : Option (Model σ) :=
  match rnodeAt m.heap vid with
  | none => none
  | some v =>
    match observeSearch m.heap v.name m.stochastic with
    | none => none
    | some p =>
      some { m with
              stochastic := p.1
              observed := m.observed ++ [p.2]
              heap := heapSetDiscard m.heap p.2 value }

/-! ## LogProb -/

/-- `SetValue` on the node at `id`, surfacing the error: the mutated heap
on success, the `OutOfBoundsErr` (heap untouched) on rejection.  A lookup
that does not reach a random-variable node leaves the heap unchanged
(unreachable for models built through the factory methods). -/
def heapSetValue (h : Heap) (id : NodeId) (v : ℚ) : Except OutOfBoundsErr Heap :=
  match h.get? id with
  | some (.rv r) =>
    match r.setValue v with
    | (some e, _) => .error e
    | (none, r2) => .ok (h.set id (.rv r2))
  | _ => .ok h

/-- The assignment loop of `Model.LogProb`: apply `SetValue(proposed[i])`
to the i-th stochastic node in order; on the first `OutOfBoundsErr` stop,
returning the heap mutated so far and the abort flag. -/
def assignLoop (h : Heap) : List (NodeId × ℚ) → Heap × Bool
  | [] => (h, false)
  | (id, v) :: rest =>
    match heapSetValue h id v with
    | .error _ => (h, true)
    | .ok h2 => assignLoop h2 rest

/-- The summation loop of `Model.LogProb`: `logprob += variable.LogProb()`
over a list of nodes, accumulating left to right; `none` when some node's
`LogProb()` call panics during parameter evaluation. -/
def sumLP (D : Dists σ) (h : Heap) : List NodeId → ℚ → Option ℚ
  | [], acc => some acc
  | id :: rest, acc => do
    let l ← nodeLogProb D h id
    sumLP D h rest (acc + l)

/-- The result of `Model.LogProb`: a fatal panic, `-Inf`, or a finite
value. -/
inductive LPResult where
  | panic
  | ninf
  | fin (q : ℚ)
  deriving DecidableEq, Repr

/-- `Model.LogProb(proposed)`: panic when the proposal length differs from
the stochastic count; otherwise assign `proposed[i]` to the i-th
stochastic node in collection order, returning `-Inf` at the first
`OutOfBoundsErr` with the remaining assignments aborted; if every
assignment succeeds, sum `LogProb()` over the stochastic then the observed
nodes.  The returned model carries the mutated heap. -/
def Model.logProb (D : Dists σ) (m : Model σ) (proposed : List ℚ) : LPResult × Model σ :=
  if proposed.length ≠ m.stochastic.length then (.panic, m)
  else
    let st := assignLoop m.heap (m.stochastic.zip proposed)
    let m2 := { m with heap := st.1 }
    if st.2 then (.ninf, m2)
    else
      match sumLP D st.1 (m.stochastic ++ m.observed) 0 with
      | none => (.panic, m2)
      | some q => (.fin q, m2)

/-! ## Sampling orchestration -/

/-- The stochastic pass of `SamplePriorPredictive`:
`for _, v := range m.stochastic { v.SetValue(v.Rand()) }` — each node
draws a fresh variate at its current parameter values (earlier nodes in
the topological order having already been updated) and the `SetValue`
error is discarded. -/
def priorAssign (D : Dists σ) : List NodeId → Heap → σ → Option (Heap × σ)
  | [], h, s => some (h, s)
  | id :: rest, h, s => do
    let x ← nodeRand D h s id
    priorAssign D rest (heapSetDiscard h id x.1) x.2

/-- One row of observed draws: `samples[o.Name()][i] = o.Rand()` over the
observed collection, in order.  Observed nodes are read, not mutated. -/
def observedDraws (D : Dists σ) : List NodeId → Heap → σ → Option (List ℚ × σ)
  | [], _, s => some ([], s)
  | id :: rest, h, s => do
    let x ← nodeRand D h s id
    let xs ← observedDraws D rest h x.2
    pure (x.1 :: xs.1, xs.2)

/-- The iteration loop of `SamplePriorPredictive`: per iteration, first
assign every stochastic node a fresh draw, then record one draw per
observed node. -/
def priorLoop (D : Dists σ) (stoch obs : List NodeId) :
    ℕ → Heap → σ → Option (List (List ℚ) × Heap × σ)
  | 0, h, s => some ([], h, s)
  | n + 1, h, s => do
    let a ← priorAssign D stoch h s
    let row ← observedDraws D obs a.1 a.2
    let rest ← priorLoop D stoch obs n a.1 row.2
    pure (row.1 :: rest.1, rest.2)

/-- Assemble the trace: one sequence per observed name, entry `i` coming
from iteration `i`'s row. -/
def mkTrace (names : List String) (rows : List (List ℚ)) : List (String × List ℚ) :=
  names.enum.map fun p => (p.2, rows.map fun row => row.getD p.1 0)

/-- The observed collection's names, in order. -/
def observedNames (m : Model σ) : Option (List String) :=
  m.observed.mapM fun id => (rnodeAt m.heap id).map (·.name)

/-- `Model.SamplePriorPredictive(numSamples)`: the trace over observed
names, plus the model with its mutated heap and advanced random source. -/
def Model.samplePriorPredictive (D : Dists σ) (m : Model σ) (numSamples : ℕ) :
    Option (List (String × List ℚ) × Model σ) := do
  let names ← observedNames m
  let r ← priorLoop D m.stochastic m.observed numSamples m.heap m.src
  pure (mkTrace names r.1, { m with heap := r.2.1, src := r.2.2 })

/-- The `Max` handed to the index-selection uniform in
`SamplePosteriorPredictive`: `distuv.Uniform{Min: 0, Max: traceSize - 1}`. -/
def ppUniformMax (traceSize : ℚ) : ℚ :=
  traceSize - 1

/-- The trace index drawn each posterior-predictive iteration:
`loc := int(math.Round(sampler.Rand()))`. -/
def ppLoc (u : ℚ) : ℤ :=
  goRound u

/-- The trace-length probe of `SamplePosteriorPredictive`: panic if any
stochastic name is missing from the trace; `traceSize` ends up as the
length recorded for the LAST stochastic variable checked (`traceSize` is
re-assigned on every loop iteration), `0` for a model with no stochastic
nodes. -/
def ppProbeSize (m : Model σ) (trace : List (String × List ℚ)) : Option ℚ :=
  m.stochastic.foldlM
    (fun _ id => do
      let r ← rnodeAt m.heap id
      let seq ← List.lookup r.name trace
      pure ((seq.length : ℚ)))
    (0 : ℚ)

/-- The stochastic pass of a posterior-predictive iteration:
`variable.SetValue(trace[variable.Name()][loc])` for every stochastic
node, the `SetValue` error discarded; `none` models the index-out-of-range
panic when `loc` misses the sequence. -/
def ppAssign (trace : List (String × List ℚ)) :
    List NodeId → Heap → ℤ → Option Heap
  | [], h, _ => some h
  | id :: rest, h, loc => do
    let r ← rnodeAt h id
    let seq ← List.lookup r.name trace
    let x ← if loc < 0 then none else seq.get? loc.toNat
    ppAssign trace rest (heapSetDiscard h id x) loc

/-- The iteration loop of `SamplePosteriorPredictive`: draw the uniform
index, set every stochastic node from the trace row at that index, then
record one fresh draw per observed node. -/
def ppLoop (D : Dists σ) (trace : List (String × List ℚ)) (stoch obs : List NodeId)
    (uMax : ℚ) : ℕ → Heap → σ → Option (List (List ℚ) × Heap × σ)
  | 0, h, s => some ([], h, s)
  | n + 1, h, s => do
    let u := D.uniformRand 0 uMax s
    let h2 ← ppAssign trace stoch h (ppLoc u.1)
    let row ← observedDraws D obs h2 u.2
    let rest ← ppLoop D trace stoch obs uMax n h2 row.2
    pure (row.1 :: rest.1, rest.2)

/-- `Model.SamplePosteriorPredictive(numSamples, trace)`: validate the
trace, then per iteration pick a trace row by rounding a uniform draw on
`[0, traceSize - 1]`, install it into the stochastic nodes, and draw the
observed nodes. -/
def Model.samplePosteriorPredictive (D : Dists σ) (m : Model σ) (numSamples : ℕ)
    (trace : List (String × List ℚ)) : Option (List (String × List ℚ) × Model σ) := do
  let ts ← ppProbeSize m trace
  let names ← observedNames m
  let r ← ppLoop D trace m.stochastic m.observed (ppUniformMax ts) numSamples m.heap m.src
  pure (mkTrace names r.1, { m with heap := r.2.1, src := r.2.2 })

/-! ## Declaration sequences

A model is built by a sequence of factory calls and `Observe` calls; node
arguments are the identifiers returned by earlier calls (Go pointers to
already-created nodes). -/

/-- One construction-time declaration. -/
inductive Decl where
  | normal (name : String) (mu sigma : NodeId)
  | beta (name : String) (alpha betaP : NodeId)
  | bernoulli (name : String) (p : NodeId)
  | binomial (name : String) (N : ℚ) (p : NodeId)
  | constant (c : ℚ)
  | sum (x y : NodeId)
  | prod (x y : NodeId)
  | logistic (x : NodeId)
  | logit (x : NodeId)
  | sw (threshold : ℚ) (s l r : NodeId)
  | observe (v : NodeId) (value : ℚ)
  deriving DecidableEq, Repr

/-- Interpret one declaration against the model. -/
def applyDecl (D : Dists σ) (m : Model σ) : Decl → Option (Model σ)
  | .normal name mu sigma => (m.addNormal D name mu sigma).map (·.1)
  | .beta name alpha betaP => (m.addBeta name alpha betaP).map (·.1)
  | .bernoulli name p => (m.addBernoulli name p).map (·.1)
  | .binomial name N p => (m.addBinomial D name N p).map (·.1)
  | .constant c => some (m.addDet (.const c)).1
  | .sum x y => some (m.addDet (.sum x y)).1
  | .prod x y => some (m.addDet (.prod x y)).1
  | .logistic x => some (m.addDet (.logistic x)).1
  | .logit x => some (m.addDet (.logit x)).1
  | .sw t s l r => some (m.addDet (.sw t s l r)).1
  | .observe v value => m.observe v value

/-- Build a model from a declaration sequence, starting from `NewModel`
with initial random-source state `s0`. -/
def buildModel (D : Dists σ) (decls : List Decl) (s0 : σ) : Option (Model σ) :=
  decls.foldlM (applyDecl D) (NewModel s0)

/-! ## Concrete collaborator instance used by the witnesses -/

/-- A concrete distribution collaborator over the random-source state `ℕ`
(a draw counter): log-densities sum the parameters and the point, draws
return `counter + 7` (deliberately outside the unit interval, so that a
Beta node rejects them).  Used only to evaluate the theorems on concrete
models. -/
def cDists : Dists ℕ where
  logProb := fun _ ps v => ps.sum + v
  rand := fun _ _ s => ((s : ℚ) + 7, s + 1)
  uniformRand := fun mn mx s => (mn + mx, s + 1)
  mathExp := fun q => q
  mathLog := fun q => q

/-- A concrete model: `p ~ Beta(1, 1)` with `heads ~ Binomial(10, p)`
observed at 7 (node 0 is the constant 1). -/
def demoDecls : List Decl :=
  [.constant 1, .beta "p" 0 0, .binomial "heads" 10 1, .observe 2 7]

/-- The demo model, built. -/
def demoModel : Model ℕ :=
  (buildModel cDists demoDecls 0).getD (NewModel 0)

/-! ## Claim C4 — Beta.SetValue support -/

/-- C4: for every Beta node and every float `x`, `SetValue(x)` succeeds
and stores `x` when `0 ≤ x ≤ 1`, and when `x < 0` or `x > 1` it returns an
`OutOfBoundsError` whose message names the offending value and leaves the
node's stored value unchanged. -/
theorem claim_C4_beta_setValue (r : RNode) (a b : NodeId) (x : ℚ)
    (hd : r.dist = .beta a b) :
    (0 ≤ x → x ≤ 1 → r.setValue x = (none, { r with value := x })) ∧
    (x < 0 ∨ x > 1 →
      r.setValue x = (some ⟨"Beta is defined on [0,1], got value " ++ goFmtF x⟩, r)) := by
  constructor
  · intro h0 h1
    refine RNode.setValue_of_ok ?_
    rw [hd]
    simp only [setErr]
    rw [if_neg]
    push_neg
    exact ⟨h0, h1⟩
  · intro h
    have he : setErr r.dist x =
        some ⟨"Beta is defined on [0,1], got value " ++ goFmtF x⟩ := by
      rw [hd]
      simp only [setErr]
      rw [if_pos h]
    have := @RNode.setValue_of_err r x (by rw [he]; rfl)
    rw [he] at this
    exact this

/-- Witness for C4: on the concrete Beta node with stored value `1/2`,
`SetValue(-0.1)` fails with the message naming `-0.100000` and leaves the
node unchanged, while `SetValue(1)` succeeds and stores `1`. -/
theorem claim_C4_beta_setValue_witness :
    RNode.setValue ⟨"p", 1/2, .beta 0 0⟩ (-1/10) =
      (some ⟨"Beta is defined on [0,1], got value -0.100000"⟩, ⟨"p", 1/2, .beta 0 0⟩) ∧
    RNode.setValue ⟨"p", 1/2, .beta 0 0⟩ 1 = (none, ⟨"p", 1, .beta 0 0⟩) := by
  constructor
  · rw [(claim_C4_beta_setValue ⟨"p", 1/2, .beta 0 0⟩ 0 0 (-1/10) rfl).2 (by norm_num)]
    with_unfolding_all rfl
  · rw [(claim_C4_beta_setValue ⟨"p", 1/2, .beta 0 0⟩ 0 0 1 rfl).1 (by norm_num) (by norm_num)]

/-! ## Claim C5 — Bernoulli / Binomial SetValue rounding -/

/-- C5: a Bernoulli node's `SetValue(x)` succeeds iff `round(x)` is 0 or
1; a Binomial node with trial count `N` succeeds iff `0 ≤ round(x) ≤ N`;
and in every successful case the raw unrounded `x` is stored. -/
theorem claim_C5_discrete_setValue (r : RNode) (x : ℚ) :
    (∀ p : NodeId, r.dist = .bernoulli p →
      ((r.setValue x).1 = none ↔ goRound x = 0 ∨ goRound x = 1)) ∧
    (∀ (N : ℚ) (p : NodeId), r.dist = .binomial N p →
      ((r.setValue x).1 = none ↔ 0 ≤ (goRound x : ℚ) ∧ (goRound x : ℚ) ≤ N)) ∧
    ((r.setValue x).1 = none → (r.setValue x).2.value = x) := by
  refine ⟨?_, ?_, ?_⟩
  · intro p hd
    rw [RNode.setValue_fst, hd]
    simp only [setErr]
    split
    · simp only [Option.some_ne_none, false_iff]
      tauto
    · simp only [true_iff]
      tauto
  · intro N p hd
    rw [RNode.setValue_fst, hd]
    simp only [setErr]
    split
    · simp only [Option.some_ne_none, false_iff]
      push_neg
      intro h0
      rename_i hcond
      rcases hcond with h | h
      · exact absurd h0 (not_le.2 h)
      · exact h
    · simp only [true_iff]
      rename_i hcond
      push_neg at hcond
      exact ⟨hcond.1, hcond.2⟩
  · intro h
    unfold RNode.setValue at *
    cases he : setErr r.dist x with
    | none => rfl
    | some e => rw [he] at h; exact absurd h (by simp)

/-- Witness for C5, on the examples from the spec: a Binomial node with
`N = 10` accepts 10 and 5.4 (storing the raw 5.4), rejects 11 and -1; a
Bernoulli node accepts 1 and rejects 2. -/
theorem claim_C5_discrete_setValue_witness :
    (RNode.setValue ⟨"heads", 0, .binomial 10 1⟩ 10).1 = none ∧
    (RNode.setValue ⟨"heads", 0, .binomial 10 1⟩ (27/5)).1 = none ∧
    (RNode.setValue ⟨"heads", 0, .binomial 10 1⟩ (27/5)).2.value = 27/5 ∧
    (RNode.setValue ⟨"heads", 0, .binomial 10 1⟩ 11).1 ≠ none ∧
    (RNode.setValue ⟨"heads", 0, .binomial 10 1⟩ (-1)).1 ≠ none ∧
    (RNode.setValue ⟨"y", 0, .bernoulli 1⟩ 1).1 = none ∧
    (RNode.setValue ⟨"y", 0, .bernoulli 1⟩ 2).1 ≠ none := by
  have hb10 := (claim_C5_discrete_setValue ⟨"heads", 0, .binomial 10 1⟩ 10).2.1 10 1 rfl
  have hb54 := (claim_C5_discrete_setValue ⟨"heads", 0, .binomial 10 1⟩ (27/5)).2.1 10 1 rfl
  have hb11 := (claim_C5_discrete_setValue ⟨"heads", 0, .binomial 10 1⟩ 11).2.1 10 1 rfl
  have hbm1 := (claim_C5_discrete_setValue ⟨"heads", 0, .binomial 10 1⟩ (-1)).2.1 10 1 rfl
  have hraw := (claim_C5_discrete_setValue ⟨"heads", 0, .binomial 10 1⟩ (27/5)).2.2
  have hy1 := (claim_C5_discrete_setValue ⟨"y", 0, .bernoulli 1⟩ 1).1 1 rfl
  have hy2 := (claim_C5_discrete_setValue ⟨"y", 0, .bernoulli 1⟩ 2).1 1 rfl
  refine ⟨hb10.mpr (by with_unfolding_all decide), hb54.mpr (by with_unfolding_all decide),
    hraw (hb54.mpr (by with_unfolding_all decide)), ?_, ?_,
    hy1.mpr (by with_unfolding_all decide), ?_⟩
  · intro h
    exact absurd (hb11.mp h) (by with_unfolding_all decide)
  · intro h
    exact absurd (hbm1.mp h) (by with_unfolding_all decide)
  · intro h
    exact absurd (hy2.mp h) (by with_unfolding_all decide)

/-! ## Claim C7 — the Logit gate -/

/-- C7: for every input `x`, the Logit gate's `Value()` fails fatally iff
`x < 0` or `x > 1`, and returns `log(1 / (1 - x))` for every `x` in
`[0, 1]` (`mlog` is the external `math.Log`). -/
theorem claim_C7_logit_gate (mlog : Flt → Flt) (x : ℚ) :
    (logitGateValue mlog x = none ↔ x < 0 ∨ x > 1) ∧
    (0 ≤ x → x ≤ 1 → logitGateValue mlog x = some (mlog (goInvOneSub x))) := by
  constructor
  · unfold logitGateValue
    split
    · simpa
    · rename_i h
      simpa using h
  · intro h0 h1
    unfold logitGateValue
    rw [if_neg]
    push_neg
    exact ⟨h0, h1⟩

/-- Witness for C7: at `x = 1/2` (in domain) the gate returns the log of
`1/(1 - 1/2) = 2`, and at `x = 1` it still succeeds (the float division
yields `+Inf`, not a panic). -/
theorem claim_C7_logit_gate_witness :
    logitGateValue id (1/2) = some (Flt.fin 2) ∧
    logitGateValue id 1 = some Flt.pinf := by
  constructor
  · rw [(claim_C7_logit_gate id (1/2)).2 (by norm_num) (by norm_num)]
    with_unfolding_all rfl
  · rw [(claim_C7_logit_gate id 1).2 (by norm_num) (by norm_num)]
    with_unfolding_all rfl

/-! ## Claim C6 — posterior-predictive index selection

The claim asserts that the rounded index can reach `traceLength` (one past
the end).  On the code this is false: the uniform the index is drawn from
is `distuv.Uniform{Min: 0, Max: traceSize - 1}`, so every draw `u`
satisfies `0 ≤ u ≤ traceSize - 1`, and rounding half away from zero can
never push such a draw up to `traceSize`.  The draw `traceSize - 0.5` the
claim names lies outside the sampler's support. -/

/-- Counterexample to C6 as stated, at trace length 3: no draw within the
index sampler's support `[0, ppUniformMax 3] = [0, 2]` rounds to 3. -/
theorem claim_C6_counterexample :
    ¬ ∃ u : ℚ, 0 ≤ u ∧ u ≤ ppUniformMax 3 ∧ ppLoc u = 3 := by
  rintro ⟨u, h0, h1, h3⟩
  have hmax : ppUniformMax 3 = 2 := by norm_num [ppUniformMax]
  rw [hmax] at h1
  have hloc : ppLoc u = ⌊u + 1/2⌋ := goRound_of_nonneg h0
  rw [hloc] at h3
  have h4 := Int.floor_eq_iff.1 h3
  have h25 : (3 : ℚ) ≤ u + 1/2 := by exact_mod_cast h4.1
  linarith

/-- C6 amended: for every trace length `L ≥ 1`, every draw in the index
sampler's support `[0, traceLength - 1]` rounds to an index within
`[0, traceLength - 1]`; the rounded index never reaches `traceLength`. -/
theorem claim_C6_amended (L : ℕ) (u : ℚ) (hL : 1 ≤ L) (h0 : 0 ≤ u)
    (h1 : u ≤ ppUniformMax L) :
    0 ≤ ppLoc u ∧ ppLoc u ≤ (L : ℤ) - 1 := by
  have hloc : ppLoc u = ⌊u + 1/2⌋ := goRound_of_nonneg h0
  rw [hloc]
  constructor
  · rw [Int.le_floor]
    push_cast
    linarith
  · have hlt : ⌊u + 1/2⌋ < (L : ℤ) := by
      rw [Int.floor_lt]
      unfold ppUniformMax at h1
      push_cast
      linarith
    omega

/-- Witness for the amended C6: at trace length 3 the draw `3/2` rounds to
index 2, within bounds. -/
theorem claim_C6_amended_witness :
    0 ≤ ppLoc (3/2) ∧ ppLoc (3/2) ≤ (3 : ℤ) - 1 :=
  claim_C6_amended 3 (3/2) (by norm_num) (by norm_num) (by norm_num [ppUniformMax])

/-! ## Claim C3 — Observe -/

theorem observeSearch_found {h : Heap} {vname : String} {fid : NodeId} {r : RNode}
    (l1 l2 : List NodeId)
    (hmiss : ∀ id ∈ l1, ∀ r2, rnodeAt h id = some r2 → r2.name ≠ vname)
    (hfid : rnodeAt h fid = some r) (hname : r.name = vname) :
    observeSearch h vname (l1 ++ fid :: l2) = some (l1 ++ l2, fid) := by
  induction l1 with
  | nil =>
    simp only [List.nil_append]
    unfold observeSearch
    rw [hfid]
    simp [hname]
  | cons id rest ih =>
    have hstep : (match rnodeAt h id with
        | some r2 => r2.name == vname
        | none => false) = false := by
      cases hid : rnodeAt h id with
      | none => rfl
      | some r2 =>
        simpa using hmiss id (by simp) r2 hid
    show observeSearch h vname (id :: (rest ++ fid :: l2)) = _
    unfold observeSearch
    rw [hstep]
    simp only [Bool.false_eq_true, if_false]
    rw [ih (fun i hi r2 hr2 => hmiss i (by simp [hi]) r2 hr2)]
    rfl

theorem observeSearch_none {h : Heap} {vname : String} (l : List NodeId)
    (hmiss : ∀ id ∈ l, ∀ r2, rnodeAt h id = some r2 → r2.name ≠ vname) :
    observeSearch h vname l = none := by
  induction l with
  | nil => rfl
  | cons id rest ih =>
    have hstep : (match rnodeAt h id with
        | some r2 => r2.name == vname
        | none => false) = false := by
      cases hid : rnodeAt h id with
      | none => rfl
      | some r2 =>
        simpa using hmiss id (by simp) r2 hid
    unfold observeSearch
    rw [hstep]
    simp only [Bool.false_eq_true, if_false]
    rw [ih (fun i hi r2 hr2 => hmiss i (by simp [hi]) r2 hr2)]
    rfl

/-- C3: `Observe(node, value)` on a node whose name matches a stochastic
node removes the first matching node from the stochastic collection,
appends it to the observed collection, and calls `SetValue(value)` on it,
so the stochastic count drops by exactly one and the observed count grows
by exactly one; when no stochastic node matches the name (in particular
when re-observing an already observed name), `Observe` fails fatally. -/
theorem claim_C3_observe (m : Model σ) (vid : NodeId) (value : ℚ) (v : RNode)
    (hv : rnodeAt m.heap vid = some v) :
    (∀ (l1 l2 : List NodeId) (fid : NodeId) (r : RNode),
      m.stochastic = l1 ++ fid :: l2 →
      (∀ id ∈ l1, ∀ r2, rnodeAt m.heap id = some r2 → r2.name ≠ v.name) →
      rnodeAt m.heap fid = some r → r.name = v.name →
      Model.observe m vid value =
        some { m with
                stochastic := l1 ++ l2
                observed := m.observed ++ [fid]
                heap := heapSetDiscard m.heap fid value } ∧
      (l1 ++ l2).length + 1 = m.stochastic.length ∧
      (m.observed ++ [fid]).length = m.observed.length + 1) ∧
    ((∀ id ∈ m.stochastic, ∀ r2, rnodeAt m.heap id = some r2 → r2.name ≠ v.name) →
      Model.observe m vid value = none) := by
  constructor
  · intro l1 l2 fid r hsplit hmiss hfid hname
    refine ⟨?_, ?_, ?_⟩
    · simp only [Model.observe, hv]
      rw [hsplit, observeSearch_found l1 l2 hmiss hfid hname]
    · rw [hsplit]
      simp
      omega
    · simp
  · intro hmiss
    simp only [Model.observe, hv]
    rw [observeSearch_none m.stochastic hmiss]

/-- A two-variable model used by the Observe witness: `p ~ Beta(1,1)` and
`heads ~ Binomial(10, p)`, neither observed yet. -/
def obsDemoModel : Model ℕ :=
  (buildModel cDists [.constant 1, .beta "p" 0 0, .binomial "heads" 10 1] 0).getD (NewModel 0)

/-- The expected state after observing `heads = 7` on `obsDemoModel`. -/
def obsDemoModel2 : Model ℕ :=
  { obsDemoModel with
      stochastic := [1]
      observed := [2]
      heap := heapSetDiscard obsDemoModel.heap 2 7 }

/-- Witness for C3: observing `heads = 7` on the concrete two-variable
model moves node 2 from the stochastic to the observed collection and
stores 7 in it; observing the same name again (now absent from the
stochastic collection) panics. -/
theorem claim_C3_observe_witness :
    Model.observe obsDemoModel 2 7 = some obsDemoModel2 ∧
    Model.observe obsDemoModel2 2 7 = none := by
  have hv : rnodeAt obsDemoModel.heap 2 = some ⟨"heads", 5, .binomial 10 1⟩ := by
    with_unfolding_all rfl
  have hmiss1 : ∀ id ∈ [(1 : NodeId)], ∀ r2 : RNode,
      rnodeAt obsDemoModel.heap id = some r2 →
      r2.name ≠ (⟨"heads", 5, .binomial 10 1⟩ : RNode).name := by
    intro id hid r2 hr2
    simp only [List.mem_singleton] at hid
    subst hid
    have hp : rnodeAt obsDemoModel.heap 1 = some ⟨"p", 1/2, .beta 0 0⟩ := by
      with_unfolding_all rfl
    rw [hp] at hr2
    rw [(Option.some_injective _ hr2).symm]
    with_unfolding_all decide
  constructor
  · have := (claim_C3_observe obsDemoModel 2 7 ⟨"heads", 5, .binomial 10 1⟩ hv).1
      [1] [] 2 ⟨"heads", 5, .binomial 10 1⟩ (by with_unfolding_all rfl) hmiss1 hv rfl
    exact this.1
  · have hv2 : rnodeAt obsDemoModel2.heap 2 = some ⟨"heads", 7, .binomial 10 1⟩ := by
      with_unfolding_all rfl
    refine (claim_C3_observe obsDemoModel2 2 7 ⟨"heads", 7, .binomial 10 1⟩ hv2).2 ?_
    intro id hid r2 hr2
    have hst : obsDemoModel2.stochastic = [1] := rfl
    rw [hst] at hid
    simp only [List.mem_singleton] at hid
    subst hid
    have hp : rnodeAt obsDemoModel2.heap 1 = some ⟨"p", 1/2, .beta 0 0⟩ := by
      with_unfolding_all rfl
    rw [hp] at hr2
    rw [(Option.some_injective _ hr2).symm]
    with_unfolding_all decide

/-! ## Claim C10 — the Binomial factory -/

/-- C10: `Model.Binomial` panics only when the trial count is exactly
`0.0`; for every other trial count — negative included — it constructs and
registers the node (given a fresh name and an evaluable `P`), the default
value being `N * P.Value()`; and for `N < 0` every subsequent `SetValue`
call on the created node fails, because no rounded value can lie in
`[0, N]`. -/
theorem claim_C10_binomial_factory (D : Dists σ) (m : Model σ) (name : String)
    (N : ℚ) (p : NodeId) (pv : ℚ)
    (hp : valueAt D m.heap p = some pv) (hname : m.isTaken name = false) :
    (N = 0 → Model.addBinomial D m name N p = none) ∧
    (N ≠ 0 →
      Model.addBinomial D m name N p =
        some ({ m with
                 heap := m.heap ++ [.rv ⟨name, N * pv, .binomial N p⟩]
                 stochastic := m.stochastic ++ [m.heap.length] }, m.heap.length)) ∧
    (N < 0 → ∀ x : ℚ, ((⟨name, N * pv, .binomial N p⟩ : RNode).setValue x).1.isSome) := by
  refine ⟨?_, ?_, ?_⟩
  · intro h
    unfold Model.addBinomial
    rw [if_pos h]
  · intro h
    unfold Model.addBinomial
    rw [if_neg h, hp]
    simp only [Model.registerStochastic, hname]
    rfl
  · intro hN x
    rw [RNode.setValue_fst]
    show (setErr (.binomial N p) x).isSome
    simp only [setErr]
    rcases lt_or_le ((goRound x : ℚ)) 0 with h | h
    · rw [if_pos (Or.inl h)]
      rfl
    · rw [if_pos (Or.inr (lt_of_lt_of_le hN h))]
      rfl

/-- The one-constant model the Binomial-factory witness builds on. -/
def c10Model : Model ℕ :=
  (buildModel cDists [.constant 1] 0).getD (NewModel 0)

/-- Witness for C10: on the one-constant model, trial count 0 panics,
trial count -2 registers the node (default value `-2 * 1`), and
`SetValue(1)` on that node fails. -/
theorem claim_C10_binomial_factory_witness :
    Model.addBinomial cDists c10Model "n" 0 0 = none ∧
    Model.addBinomial cDists c10Model "n" (-2) 0 =
      some ({ c10Model with
               heap := c10Model.heap ++ [.rv ⟨"n", -2 * 1, .binomial (-2) 0⟩]
               stochastic := c10Model.stochastic ++ [c10Model.heap.length] },
            c10Model.heap.length) ∧
    ((⟨"n", -2 * 1, .binomial (-2) 0⟩ : RNode).setValue 1).1.isSome := by
  have hp : valueAt cDists c10Model.heap 0 = some 1 := by
    with_unfolding_all rfl
  have hname : c10Model.isTaken "n" = false := by
    with_unfolding_all rfl
  refine ⟨(claim_C10_binomial_factory cDists c10Model "n" 0 0 1 hp hname).1 rfl,
    (claim_C10_binomial_factory cDists c10Model "n" (-2) 0 1 hp hname).2.1 (by norm_num),
    (claim_C10_binomial_factory cDists c10Model "n" (-2) 0 1 hp hname).2.2 (by norm_num) 1⟩

/-! ## Claim C2 — prior-predictive reproducibility

Every source of randomness is the single `src` state owned by the model
and threaded deterministically through construction and sampling, so two
models built by the same declaration sequence from the same random-source
state are equal, and sampling them produces bit-identical traces. -/

/-- C2: two models built by identical declaration sequences (same factory
calls, same `Observe` calls, in the same order) from identical
random-source seeds produce bit-identical prior-predictive traces (the
same keys mapped to the same sequences, value for value). -/
theorem claim_C2_prior_predictive_deterministic (D : Dists σ)
    (decls : List Decl) (s0 : σ) (n : ℕ) (m1 m2 : Model σ)
    (h1 : buildModel D decls s0 = some m1) (h2 : buildModel D decls s0 = some m2) :
    Model.samplePriorPredictive D m1 n = Model.samplePriorPredictive D m2 n := by
  have hm : m1 = m2 := Option.some_injective _ (h1.symm.trans h2)
  rw [hm]

/-- Witness for C2: the demo model (Beta prior, observed Binomial) built
twice from the same declarations and seed state yields the same
two-sample prior-predictive trace. -/
theorem claim_C2_prior_predictive_deterministic_witness :
    Model.samplePriorPredictive cDists demoModel 2 =
      Model.samplePriorPredictive cDists demoModel 2 := by
  have hb : buildModel cDists demoDecls 0 = some demoModel := by
    with_unfolding_all rfl
  exact claim_C2_prior_predictive_deterministic cDists demoDecls 0 2
    demoModel demoModel hb hb

/-! ## Infrastructure for the LogProb claims

The acceptance of a proposed value by `SetValue` depends only on the
node's distribution (its family, and `N` for Binomial), never on the
node's current value, and assignments never change a node's name or
distribution.  These lemmas make the acceptance/rejection of a whole
proposal vector a function of the model state before the call. -/

/-- The name and distribution of the node at `id` — the part of the heap
that `SetValue` can never change. -/
def distAt (h : Heap) (id : NodeId) : Option (String × Dist) :=
  (rnodeAt h id).map fun r => (r.name, r.dist)

/-- Whether the proposal pair `p` (node identifier, value) is rejected by
that node's `SetValue`: the node exists and the value is outside its
distribution's support. -/
def rejectsB (h : Heap) (p : NodeId × ℚ) : Bool :=
  match distAt h p.1 with
  | some nd => (setErr nd.2 p.2).isSome
  | none => false

theorem rnodeAt_eq_some {h : Heap} {id : NodeId} {r : RNode} :
    rnodeAt h id = some r ↔ h.get? id = some (.rv r) := by
  unfold rnodeAt
  cases hg : h.get? id with
  | none => simp
  | some n => cases n <;> simp

theorem rnodeAt_set_rv {h : Heap} {id : NodeId} {r : RNode}
    (hr : rnodeAt h id = some r) (r2 : RNode) (j : NodeId) :
    rnodeAt (h.set id (.rv r2)) j = if j = id then some r2 else rnodeAt h j := by
  have hg := rnodeAt_eq_some.1 hr
  have hlt : id < h.length := by
    rcases List.get?_eq_some.1 hg with ⟨hl, _⟩
    exact hl
  by_cases hj : j = id
  · subst hj
    rw [if_pos rfl, rnodeAt_eq_some]
    exact List.get?_set_eq_of_lt _ hlt
  · rw [if_neg hj]
    unfold rnodeAt
    rw [List.get?_set_ne _ _ (fun he2 => hj he2.symm)]

theorem heapSetValue_rv_err {h : Heap} {id : NodeId} {r : RNode} {v : ℚ} {e : OutOfBoundsErr}
    (hr : rnodeAt h id = some r) (he : setErr r.dist v = some e) :
    heapSetValue h id v = .error e := by
  unfold heapSetValue
  rw [rnodeAt_eq_some.1 hr]
  simp only [RNode.setValue_of_err (show (setErr r.dist v).isSome from by rw [he]; rfl), he]

theorem heapSetValue_rv_ok {h : Heap} {id : NodeId} {r : RNode} {v : ℚ}
    (hr : rnodeAt h id = some r) (he : setErr r.dist v = none) :
    heapSetValue h id v = .ok (h.set id (.rv { r with value := v })) := by
  unfold heapSetValue
  rw [rnodeAt_eq_some.1 hr]
  simp only [RNode.setValue_of_ok he]

theorem heapSetValue_not_rv {h : Heap} {id : NodeId} (v : ℚ)
    (hr : rnodeAt h id = none) :
    heapSetValue h id v = .ok h := by
  unfold heapSetValue
  unfold rnodeAt at hr
  cases hg : h.get? id with
  | none => rfl
  | some n =>
    rw [hg] at hr
    cases n with
    | det d => rfl
    | rv r => exact absurd hr (by simp)

theorem distAt_heapSetValue_ok {h : Heap} {id : NodeId} {v : ℚ} {h2 : Heap}
    (hok : heapSetValue h id v = .ok h2) (j : NodeId) :
    distAt h2 j = distAt h j := by
  cases hr : rnodeAt h id with
  | none =>
    rw [heapSetValue_not_rv v hr] at hok
    cases hok
    rfl
  | some r =>
    cases he : setErr r.dist v with
    | some e =>
      rw [heapSetValue_rv_err hr he] at hok
      cases hok
    | none =>
      rw [heapSetValue_rv_ok hr he] at hok
      cases hok
      unfold distAt
      rw [rnodeAt_set_rv hr _ j]
      by_cases hj : j = id
      · subst hj
        rw [if_pos rfl, hr]
        rfl
      · rw [if_neg hj]

theorem rejectsB_congr {h h2 : Heap} (hd : ∀ j, distAt h2 j = distAt h j)
    (p : NodeId × ℚ) : rejectsB h2 p = rejectsB h p := by
  unfold rejectsB
  rw [hd p.1]

theorem rnodeAt_isSome_iff_distAt {h : Heap} {id : NodeId} :
    (rnodeAt h id).isSome = (distAt h id).isSome := by
  unfold distAt
  cases rnodeAt h id <;> rfl

theorem rejectsB_false_elim {h : Heap} {p : NodeId × ℚ} {r : RNode}
    (hacc : rejectsB h p = false) (hr : rnodeAt h p.1 = some r) :
    setErr r.dist p.2 = none := by
  unfold rejectsB distAt at hacc
  rw [hr] at hacc
  simpa using hacc

theorem rejectsB_true_elim {h : Heap} {p : NodeId × ℚ}
    (hrej : rejectsB h p = true) :
    ∃ r e, rnodeAt h p.1 = some r ∧ setErr r.dist p.2 = some e := by
  unfold rejectsB distAt at hrej
  cases hr : rnodeAt h p.1 with
  | none => rw [hr] at hrej; simp at hrej
  | some r =>
    rw [hr] at hrej
    have hrej2 : (setErr r.dist p.2).isSome = true := hrej
    cases he : setErr r.dist p.2 with
    | none => rw [he] at hrej2; simp at hrej2
    | some e => exact ⟨r, e, rfl, he⟩

/-- The single accepted `SetValue` step of the assignment loop: both the
flag and the shape of the heap are determined by the proposal alone. -/
theorem assignLoop_cons_ok {h : Heap} {p : NodeId × ℚ} (rest : List (NodeId × ℚ))
    {h2 : Heap} (hok : heapSetValue h p.1 p.2 = .ok h2) :
    assignLoop h (p :: rest) = assignLoop h2 rest := by
  show (match heapSetValue h p.1 p.2 with
    | .error _ => (h, true)
    | .ok h3 => assignLoop h3 rest) = _
  rw [hok]

/-- A loop over proposals that are all within support never aborts and
preserves every node's name and distribution. -/
theorem assignLoop_no_reject (l : List (NodeId × ℚ)) (h : Heap)
    (hacc : ∀ p ∈ l, rejectsB h p = false) :
    (assignLoop h l).2 = false ∧ ∀ j, distAt (assignLoop h l).1 j = distAt h j := by
  induction l generalizing h with
  | nil => exact ⟨rfl, fun j => rfl⟩
  | cons p rest ih =>
    cases hr : rnodeAt h p.1 with
    | none =>
      have hok := heapSetValue_not_rv p.2 hr
      rw [assignLoop_cons_ok rest hok]
      exact ih h (fun q hq => hacc q (by simp [hq]))
    | some r =>
      have he := rejectsB_false_elim (hacc p (by simp)) hr
      have hok := heapSetValue_rv_ok hr he
      rw [assignLoop_cons_ok rest hok]
      have hd := distAt_heapSetValue_ok hok
      have ih2 := ih (h.set p.1 (.rv { r with value := p.2 }))
        (fun q hq => by rw [rejectsB_congr hd q]; exact hacc q (by simp [hq]))
      exact ⟨ih2.1, fun j => (ih2.2 j).trans (hd j)⟩

/-- A loop that meets a rejected proposal aborts with the flag set. -/
theorem assignLoop_reject (l : List (NodeId × ℚ)) (h : Heap)
    (hrej : ∃ p ∈ l, rejectsB h p = true) :
    (assignLoop h l).2 = true := by
  induction l generalizing h with
  | nil => simp at hrej
  | cons q rest ih =>
    by_cases hq : rejectsB h q = true
    · rcases rejectsB_true_elim hq with ⟨r, e, hr, he⟩
      have herr := heapSetValue_rv_err hr he
      show ((match heapSetValue h q.1 q.2 with
        | .error _ => (h, true)
        | .ok h3 => assignLoop h3 rest)).2 = true
      rw [herr]
    · have hp : ∃ p ∈ rest, rejectsB h p = true := by
        rcases hrej with ⟨p, hpmem, hprej⟩
        rcases List.mem_cons.1 hpmem with hph | hpt
        · exact absurd (hph ▸ hprej) hq
        · exact ⟨p, hpt, hprej⟩
      cases hr : rnodeAt h q.1 with
      | none =>
        rw [assignLoop_cons_ok rest (heapSetValue_not_rv q.2 hr)]
        exact ih h hp
      | some r =>
        have he := rejectsB_false_elim (by simpa using hq) hr
        have hok := heapSetValue_rv_ok hr he
        rw [assignLoop_cons_ok rest hok]
        have hd := distAt_heapSetValue_ok hok
        refine ih _ ?_
        rcases hp with ⟨p, hpmem, hprej⟩
        exact ⟨p, hpmem, by rw [rejectsB_congr hd p]; exact hprej⟩

/-- The assignment loop leaves every node outside its proposal list
untouched. -/
theorem assignLoop_frame (l : List (NodeId × ℚ)) (h : Heap) (j : NodeId)
    (hj : j ∉ l.map Prod.fst) :
    rnodeAt (assignLoop h l).1 j = rnodeAt h j := by
  induction l generalizing h with
  | nil => rfl
  | cons p rest ih =>
    have hjp : j ≠ p.1 := by
      intro hcon
      exact hj (by simp [hcon])
    have hjrest : j ∉ rest.map Prod.fst := fun hcon => hj (by simp [hcon])
    cases hr : rnodeAt h p.1 with
    | none =>
      rw [assignLoop_cons_ok rest (heapSetValue_not_rv p.2 hr)]
      exact ih h hjrest
    | some r =>
      cases he : setErr r.dist p.2 with
      | some e =>
        have herr := heapSetValue_rv_err hr he
        show rnodeAt ((match heapSetValue h p.1 p.2 with
          | .error _ => (h, true)
          | .ok h3 => assignLoop h3 rest)).1 j = _
        rw [herr]
      | none =>
        rw [assignLoop_cons_ok rest (heapSetValue_rv_ok hr he)]
        rw [ih _ hjrest, rnodeAt_set_rv hr _ j, if_neg hjp]

/-- After a fully accepted assignment pass over distinct resolvable nodes,
every node in the list stores exactly its proposed value. -/
theorem assignLoop_values (l : List (NodeId × ℚ)) (h : Heap)
    (hnd : (l.map Prod.fst).Nodup)
    (hwf : ∀ p ∈ l, (rnodeAt h p.1).isSome)
    (hacc : ∀ p ∈ l, rejectsB h p = false) :
    ∀ p ∈ l, ∃ r, rnodeAt (assignLoop h l).1 p.1 = some r ∧ r.value = p.2 := by
  induction l generalizing h with
  | nil => intro p hp; simp at hp
  | cons q rest ih =>
    have hq := hwf q (by simp)
    cases hr : rnodeAt h q.1 with
    | none => rw [hr] at hq; simp at hq
    | some r =>
      have he := rejectsB_false_elim (hacc q (by simp)) hr
      have hok := heapSetValue_rv_ok hr he
      have hd := distAt_heapSetValue_ok hok
      have hpair := List.nodup_cons.1 (show (q.1 :: rest.map Prod.fst).Nodup from hnd)
      have hndr : (rest.map Prod.fst).Nodup := hpair.2
      have hq1 : q.1 ∉ rest.map Prod.fst := hpair.1
      have hwfr : ∀ p ∈ rest, (rnodeAt (h.set q.1 (.rv { r with value := q.2 })) p.1).isSome := by
        intro p hp
        rw [rnodeAt_isSome_iff_distAt, hd p.1, ← rnodeAt_isSome_iff_distAt]
        exact hwf p (by simp [hp])
      have haccr : ∀ p ∈ rest, rejectsB (h.set q.1 (.rv { r with value := q.2 })) p = false := by
        intro p hp
        rw [rejectsB_congr hd p]
        exact hacc p (by simp [hp])
      intro p hp
      rcases List.mem_cons.1 hp with hph | hpt
      · subst hph
        rw [assignLoop_cons_ok rest hok]
        rw [assignLoop_frame rest _ p.1 hq1, rnodeAt_set_rv hr _ p.1, if_pos rfl]
        exact ⟨{ r with value := p.2 }, rfl, rfl⟩
      · rw [assignLoop_cons_ok rest hok]
        exact ih _ hndr hwfr haccr p hpt

/-- A loop whose proposals are accepted up to the first rejected one stops
there: the result is the heap after the accepted prefix, flagged aborted.
The rejected node itself and everything after it are left untouched. -/
theorem assignLoop_first_reject (l1 : List (NodeId × ℚ)) (p : NodeId × ℚ)
    (l2 : List (NodeId × ℚ)) (h : Heap)
    (hacc : ∀ q ∈ l1, rejectsB h q = false)
    (hrej : rejectsB h p = true) :
    assignLoop h (l1 ++ p :: l2) = ((assignLoop h l1).1, true) := by
  induction l1 generalizing h with
  | nil =>
    rcases rejectsB_true_elim hrej with ⟨r, e, hr, he⟩
    have herr := heapSetValue_rv_err hr he
    show (match heapSetValue h p.1 p.2 with
      | .error _ => (h, true)
      | .ok h3 => assignLoop h3 (l2)) = _
    rw [herr]
    rfl
  | cons q rest ih =>
    cases hr : rnodeAt h q.1 with
    | none =>
      have hok := heapSetValue_not_rv q.2 hr
      rw [show (q :: rest) ++ p :: l2 = q :: (rest ++ p :: l2) from rfl,
        assignLoop_cons_ok _ hok, assignLoop_cons_ok rest hok]
      exact ih h (fun x hx => hacc x (by simp [hx])) hrej
    | some r =>
      have he := rejectsB_false_elim (hacc q (by simp)) hr
      have hok := heapSetValue_rv_ok hr he
      have hd := distAt_heapSetValue_ok hok
      rw [show (q :: rest) ++ p :: l2 = q :: (rest ++ p :: l2) from rfl,
        assignLoop_cons_ok _ hok, assignLoop_cons_ok rest hok]
      exact ih _ (fun x hx => by
          rw [rejectsB_congr hd x]
          exact hacc x (by simp [hx]))
        (by rw [rejectsB_congr hd p]; exact hrej)

/-- The list of per-node `LogProb()` values over a node list, in order
(`none` when some node's evaluation panics): the declarative counterpart
of the accumulating Go loop. -/
def logProbList (D : Dists σ) (h : Heap) : List NodeId → Option (List ℚ)
  | [] => some []
  | id :: rest =>
    match nodeLogProb D h id, logProbList D h rest with
    | some q, some qs => some (q :: qs)
    | _, _ => none

theorem sumLP_eq_logProbList (D : Dists σ) (h : Heap) (l : List NodeId) (acc : ℚ) :
    sumLP D h l acc = (logProbList D h l).map (fun xs => acc + xs.sum) := by
  induction l generalizing acc with
  | nil => simp [sumLP, logProbList]
  | cons id rest ih =>
    show (nodeLogProb D h id).bind (fun q => sumLP D h rest (acc + q)) =
      Option.map (fun xs => acc + xs.sum)
        (match nodeLogProb D h id, logProbList D h rest with
          | some q, some qs => some (q :: qs)
          | _, _ => none)
    cases hq : nodeLogProb D h id with
    | none => cases logProbList D h rest <;> rfl
    | some q =>
      show sumLP D h rest (acc + q) = _
      rw [ih]
      cases logProbList D h rest with
      | none => rfl
      | some qs =>
        show some (acc + q + qs.sum) = some (acc + (q :: qs).sum)
        rw [List.sum_cons]
        ring_nf

theorem logProbList_append (D : Dists σ) (h : Heap) (a b : List NodeId)
    {as bs : List ℚ} (ha : logProbList D h a = some as) (hb : logProbList D h b = some bs) :
    logProbList D h (a ++ b) = some (as ++ bs) := by
  induction a generalizing as with
  | nil =>
    cases ha
    simpa using hb
  | cons id rest ih =>
    show (match nodeLogProb D h id, logProbList D h (rest ++ b) with
      | some q, some qs => some (q :: qs)
      | _, _ => none) = some (as ++ bs)
    have ha2 : (match nodeLogProb D h id, logProbList D h rest with
      | some q, some qs => some (q :: qs)
      | _, _ => none) = some as := ha
    cases hq : nodeLogProb D h id with
    | none => rw [hq] at ha2; cases logProbList D h rest <;> simp at ha2
    | some q =>
      rw [hq] at ha2
      cases hrest : logProbList D h rest with
      | none => rw [hrest] at ha2; simp at ha2
      | some qs =>
        rw [hrest] at ha2
        have : as = q :: qs := by
          have := Option.some_injective _ ha2
          exact this.symm
        subst this
        rw [ih hrest]
        rfl

/-! ## Claims C1 and C8 — LogProb -/

/-- C1: with a proposal vector of the correct length, `LogProb` assigns
`proposed[i]` to the i-th stochastic node in collection order; if some
assignment is rejected (`OutOfBoundsError`) it returns `-Inf`; if every
assignment succeeds, every stochastic node holds its proposed value and
the result is the sum of `LogProb()` over every stochastic node plus
`LogProb()` over every observed node. -/
theorem claim_C1_logProb (D : Dists σ) (m : Model σ) (proposed : List ℚ)
    (hlen : proposed.length = m.stochastic.length)
    (hnd : m.stochastic.Nodup)
    (hwf : ∀ id ∈ m.stochastic, (rnodeAt m.heap id).isSome) :
    ((∃ p ∈ m.stochastic.zip proposed, rejectsB m.heap p = true) →
      (Model.logProb D m proposed).1 = .ninf) ∧
    ((∀ p ∈ m.stochastic.zip proposed, rejectsB m.heap p = false) →
      (∀ p ∈ m.stochastic.zip proposed,
        ∃ r, rnodeAt (Model.logProb D m proposed).2.heap p.1 = some r ∧ r.value = p.2) ∧
      (∀ qs rs : List ℚ,
        logProbList D (Model.logProb D m proposed).2.heap m.stochastic = some qs →
        logProbList D (Model.logProb D m proposed).2.heap m.observed = some rs →
        (Model.logProb D m proposed).1 = .fin (qs.sum + rs.sum))) := by
  have hmain : Model.logProb D m proposed =
      (if (assignLoop m.heap (m.stochastic.zip proposed)).2
       then (LPResult.ninf, { m with heap := (assignLoop m.heap (m.stochastic.zip proposed)).1 })
       else
        match sumLP D (assignLoop m.heap (m.stochastic.zip proposed)).1
            (m.stochastic ++ m.observed) 0 with
        | none => (LPResult.panic, { m with heap := (assignLoop m.heap (m.stochastic.zip proposed)).1 })
        | some q => (LPResult.fin q, { m with heap := (assignLoop m.heap (m.stochastic.zip proposed)).1 })) := by
    unfold Model.logProb
    rw [if_neg (by simp [hlen])]
  constructor
  · intro hrej
    rw [hmain, if_pos (assignLoop_reject _ _ hrej)]
  · intro hacc
    have hflag := (assignLoop_no_reject _ _ hacc).1
    have hheap : (Model.logProb D m proposed).2.heap =
        (assignLoop m.heap (m.stochastic.zip proposed)).1 := by
      rw [hmain, if_neg (by rw [hflag]; exact Bool.false_ne_true)]
      cases sumLP D (assignLoop m.heap (m.stochastic.zip proposed)).1
        (m.stochastic ++ m.observed) 0 <;> rfl
    have hndz : ((m.stochastic.zip proposed).map Prod.fst).Nodup := by
      rw [List.map_fst_zip _ _ (le_of_eq hlen.symm)]
      exact hnd
    have hwfz : ∀ p ∈ m.stochastic.zip proposed, (rnodeAt m.heap p.1).isSome := by
      intro p hp
      exact hwf p.1 (List.mem_zip hp).1
    constructor
    · intro p hp
      rw [hheap]
      exact assignLoop_values _ _ hndz hwfz hacc p hp
    · intro qs rs hqs hrs
      rw [hheap] at hqs hrs
      rw [hmain, if_neg (by rw [hflag]; exact Bool.false_ne_true)]
      rw [sumLP_eq_logProbList, logProbList_append D _ _ _ hqs hrs]
      show LPResult.fin (0 + (qs ++ rs).sum) = LPResult.fin (qs.sum + rs.sum)
      rw [List.sum_append, zero_add]

/-- C8: when `LogProb` aborts because the proposal for the node after the
accepted prefix `l1` is rejected, the result is `-Inf`, every node of the
accepted prefix retains the proposed value it was assigned in that same
call (no rollback), and every other node — the rejecting node and
everything after it included — keeps the value it held before the call. -/
theorem claim_C8_logProb_frame (D : Dists σ) (m : Model σ) (proposed : List ℚ)
    (l1 : List (NodeId × ℚ)) (p : NodeId × ℚ) (l2 : List (NodeId × ℚ))
    (hlen : proposed.length = m.stochastic.length)
    (hzip : m.stochastic.zip proposed = l1 ++ p :: l2)
    (hnd : m.stochastic.Nodup)
    (hwf : ∀ q ∈ l1, (rnodeAt m.heap q.1).isSome)
    (hacc : ∀ q ∈ l1, rejectsB m.heap q = false)
    (hrej : rejectsB m.heap p = true) :
    (Model.logProb D m proposed).1 = .ninf ∧
    (∀ q ∈ l1, ∃ r, rnodeAt (Model.logProb D m proposed).2.heap q.1 = some r ∧ r.value = q.2) ∧
    (∀ id, id ∉ l1.map Prod.fst →
      rnodeAt (Model.logProb D m proposed).2.heap id = rnodeAt m.heap id) := by
  have hfr := assignLoop_first_reject l1 p l2 m.heap hacc hrej
  have hstep : assignLoop m.heap (m.stochastic.zip proposed) =
      ((assignLoop m.heap l1).1, true) := by
    rw [hzip, hfr]
  have hmain : Model.logProb D m proposed =
      (LPResult.ninf, { m with heap := (assignLoop m.heap l1).1 }) := by
    unfold Model.logProb
    rw [if_neg (by simp [hlen])]
    show (if (assignLoop m.heap (m.stochastic.zip proposed)).2
      then (LPResult.ninf, { m with heap := (assignLoop m.heap (m.stochastic.zip proposed)).1 })
      else _) = _
    rw [hstep]
    rfl
  have hndl1 : (l1.map Prod.fst).Nodup := by
    have hmap : m.stochastic = l1.map Prod.fst ++ (p :: l2).map Prod.fst := by
      rw [← List.map_append, ← hzip, List.map_fst_zip _ _ (le_of_eq hlen.symm)]
    rw [hmap] at hnd
    exact hnd.of_append_left
  refine ⟨by rw [hmain], ?_, ?_⟩
  · intro q hq
    rw [hmain]
    exact assignLoop_values l1 m.heap hndl1 hwf hacc q hq
  · intro id hid
    rw [hmain]
    exact assignLoop_frame l1 m.heap id hid

/-- Witness for C1, on the demo model (one stochastic Beta, one observed
Binomial): the out-of-support proposal `[1.5]` yields `-Inf`; the
in-support proposal `[0.5]` stores `0.5` in the Beta node and returns the
sum of the two collaborator log-densities (`5/2` for the Beta at `1/2`,
`35/2` for the observed Binomial). -/
theorem claim_C1_logProb_witness :
    (Model.logProb cDists demoModel [3/2]).1 = .ninf ∧
    (Model.logProb cDists demoModel [1/2]).1 = .fin (5/2 + 35/2) ∧
    (∃ r, rnodeAt (Model.logProb cDists demoModel [1/2]).2.heap 1 = some r ∧
      r.value = 1/2) := by
  have hnd : demoModel.stochastic.Nodup := by with_unfolding_all decide
  have hwf : ∀ id ∈ demoModel.stochastic, (rnodeAt demoModel.heap id).isSome := by
    with_unfolding_all decide
  have hlen1 : ([(3:ℚ)/2]).length = demoModel.stochastic.length := by
    with_unfolding_all rfl
  have hlen2 : ([(1:ℚ)/2]).length = demoModel.stochastic.length := by
    with_unfolding_all rfl
  refine ⟨?_, ?_, ?_⟩
  · exact (claim_C1_logProb cDists demoModel [3/2] hlen1 hnd hwf).1
      ⟨(1, 3/2), by with_unfolding_all decide, by with_unfolding_all decide⟩
  · have h := ((claim_C1_logProb cDists demoModel [1/2] hlen2 hnd hwf).2
      (by with_unfolding_all decide)).2 [5/2] [35/2]
      (by with_unfolding_all rfl) (by with_unfolding_all rfl)
    simpa using h
  · exact ((claim_C1_logProb cDists demoModel [1/2] hlen2 hnd hwf).2
      (by with_unfolding_all decide)).1 (1, 1/2) (by with_unfolding_all decide)

/-- A three-stochastic-node model for the C8 witness: `a ~ Normal`,
`b ~ Beta`, `c ~ Normal`, parameters all the constant 1, nothing
observed. -/
def c8Model : Model ℕ :=
  (buildModel cDists
    [.constant 1, .normal "a" 0 0, .beta "b" 0 0, .normal "c" 0 0] 0).getD (NewModel 0)

/-- Witness for C8: `LogProb([5, 2, 7])` on the three-node model rejects
at the Beta node (index 1 in collection order): the result is `-Inf`, the
Normal node before it keeps the `5` assigned in the same call, and the
Beta and second Normal node keep their prior values. -/
theorem claim_C8_logProb_frame_witness :
    (Model.logProb cDists c8Model [5, 2, 7]).1 = .ninf ∧
    (∃ r, rnodeAt (Model.logProb cDists c8Model [5, 2, 7]).2.heap 1 = some r ∧
      r.value = 5) ∧
    rnodeAt (Model.logProb cDists c8Model [5, 2, 7]).2.heap 2 = rnodeAt c8Model.heap 2 ∧
    rnodeAt (Model.logProb cDists c8Model [5, 2, 7]).2.heap 3 = rnodeAt c8Model.heap 3 := by
  have h := claim_C8_logProb_frame cDists c8Model [5, 2, 7] [(1, 5)] (2, 2) [(3, 7)]
    (by with_unfolding_all rfl) (by with_unfolding_all rfl)
    (by with_unfolding_all decide) (by with_unfolding_all decide)
    (by with_unfolding_all decide) (by with_unfolding_all decide)
  exact ⟨h.1, h.2.1 (1, 5) (by with_unfolding_all decide),
    h.2.2 2 (by with_unfolding_all decide), h.2.2 3 (by with_unfolding_all decide)⟩

/-! ## Claim C9 — sampling discards SetValue errors

`SamplePriorPredictive` writes `v.SetValue(v.Rand())` and
`SamplePosteriorPredictive` writes `variable.SetValue(trace[name][loc])`;
both discard the returned error, which in the embedding is the single
write primitive `heapSetDiscard` shared by the two loops. -/

theorem list_set_self {α : Type} {l : List α} {i : ℕ} {a : α}
    (h : l.get? i = some a) : l.set i a = l := by
  induction l generalizing i with
  | nil => simp at h
  | cons x xs ih =>
    cases i with
    | zero =>
      have : a = x := by simpa using h.symm
      subst this
      rfl
    | succ j =>
      show x :: xs.set j a = x :: xs
      rw [ih (by simpa using h)]

theorem priorLoop_length (D : Dists σ) (st obs : List NodeId) (n : ℕ) (h : Heap) (s : σ)
    {rows : List (List ℚ)} {hs : Heap × σ}
    (hl : priorLoop D st obs n h s = some (rows, hs)) : rows.length = n := by
  induction n generalizing h s rows hs with
  | zero =>
    have h0 : (([] : List (List ℚ)), h, s) = (rows, hs) := Option.some_injective _ hl
    have : rows = [] := (congrArg Prod.fst h0).symm
    simp [this]
  | succ k ih =>
    replace hl : ((priorAssign D st h s).bind fun a =>
        (observedDraws D obs a.1 a.2).bind fun row =>
        (priorLoop D st obs k a.1 row.2).bind fun rest =>
        some (row.1 :: rest.1, rest.2)) = some (rows, hs) := hl
    cases ha : priorAssign D st h s with
    | none => rw [ha] at hl; simp at hl
    | some a =>
      rw [ha] at hl
      replace hl : ((observedDraws D obs a.1 a.2).bind fun row =>
          (priorLoop D st obs k a.1 row.2).bind fun rest =>
          some (row.1 :: rest.1, rest.2)) = some (rows, hs) := hl
      cases hr : observedDraws D obs a.1 a.2 with
      | none => rw [hr] at hl; simp at hl
      | some row =>
        rw [hr] at hl
        replace hl : ((priorLoop D st obs k a.1 row.2).bind fun rest =>
            some (row.1 :: rest.1, rest.2)) = some (rows, hs) := hl
        cases hp : priorLoop D st obs k a.1 row.2 with
        | none => rw [hp] at hl; simp at hl
        | some rest =>
          rw [hp] at hl
          replace hl : (some (row.1 :: rest.1, rest.2) : Option _) = some (rows, hs) := hl
          have hinj := Option.some_injective _ hl
          have hrows : rows = row.1 :: rest.1 := (congrArg Prod.fst hinj).symm
          have hp2 : priorLoop D st obs k a.1 row.2 = some (rest.1, rest.2) := by
            rw [hp]
          have hk := ih a.1 row.2 hp2
          rw [hrows, List.length_cons, hk]

theorem mkTrace_lengths (names : List String) (rows : List (List ℚ)) :
    ∀ pr ∈ mkTrace names rows, pr.2.length = rows.length := by
  intro pr hpr
  unfold mkTrace at hpr
  rcases List.mem_map.1 hpr with ⟨q, _, hq⟩
  rw [← hq]
  simp

/-- C9: both sampling procedures discard the error returned by `SetValue`.
First conjunct: the shared write primitive leaves the heap — hence the
node's previous value — unchanged whenever the value is rejected, and
execution continues.  Second conjunct: whenever prior-predictive sampling
returns, every observed sequence has the full requested length, whatever
was rejected along the way — no error reaches the caller.  Third
conjunct: a concrete run on the demo model in which the Beta draw (7) is
out of support: sampling still returns a full trace, and the Beta node's
heap entry afterwards is its stale previous value `1/2`, on which the
observed sample was conditioned.  Last conjunct: the same silent-discard
on the posterior-predictive side, with a trace whose entry 5 is outside
the Beta support: the run returns a full trace and the node again keeps
`1/2`. -/
theorem claim_C9_sampling_discards_errors :
    (∀ (h : Heap) (id : NodeId) (r : RNode) (v : ℚ),
      rnodeAt h id = some r → ((r.setValue v).1).isSome → heapSetDiscard h id v = h) ∧
    (∀ (σ : Type) (D : Dists σ) (m : Model σ) (n : ℕ)
      (tr : List (String × List ℚ)) (m2 : Model σ),
      Model.samplePriorPredictive D m n = some (tr, m2) →
      ∀ pr ∈ tr, pr.2.length = n) ∧
    (Model.samplePriorPredictive cDists demoModel 1 =
        some ([("heads", [8])], { demoModel with src := 2 }) ∧
      ((⟨"p", 1/2, .beta 0 0⟩ : RNode).setValue 7).1.isSome ∧
      rnodeAt demoModel.heap 1 = some ⟨"p", 1/2, .beta 0 0⟩ ∧
      Model.samplePosteriorPredictive cDists demoModel 1 [("p", [5, 5])] =
        some ([("heads", [8])], { demoModel with src := 2 }) ∧
      ((⟨"p", 1/2, .beta 0 0⟩ : RNode).setValue 5).1.isSome) := by
  refine ⟨?_, ?_, ?_, ?_, ?_, ?_, ?_⟩
  · intro h id r v hr hrej
    unfold heapSetDiscard
    rw [rnodeAt_eq_some.1 hr]
    show h.set id (.rv (r.setValue v).2) = h
    have hsv : (r.setValue v).2 = r := by
      rw [RNode.setValue_of_err (by
        rw [← RNode.setValue_fst]
        exact hrej)]
    rw [hsv]
    exact list_set_self (rnodeAt_eq_some.1 hr)
  · intro σ2 D m n tr m2 hsp pr hpr
    replace hsp : ((observedNames m).bind fun names =>
        (priorLoop D m.stochastic m.observed n m.heap m.src).bind fun r =>
        some (mkTrace names r.1, { m with heap := r.2.1, src := r.2.2 })) =
        some (tr, m2) := hsp
    cases hn : observedNames m with
    | none => rw [hn] at hsp; simp at hsp
    | some names =>
      rw [hn] at hsp
      replace hsp : ((priorLoop D m.stochastic m.observed n m.heap m.src).bind fun r =>
          some (mkTrace names r.1, { m with heap := r.2.1, src := r.2.2 })) =
          some (tr, m2) := hsp
      cases hp : priorLoop D m.stochastic m.observed n m.heap m.src with
      | none => rw [hp] at hsp; simp at hsp
      | some r =>
        rw [hp] at hsp
        replace hsp : (some (mkTrace names r.1, { m with heap := r.2.1, src := r.2.2 }) :
            Option _) = some (tr, m2) := hsp
        have hinj := Option.some_injective _ hsp
        have htr : tr = mkTrace names r.1 := (congrArg Prod.fst hinj).symm
        have hp2 : priorLoop D m.stochastic m.observed n m.heap m.src =
            some (r.1, r.2) := by
          rw [hp]
        have hlen := priorLoop_length D m.stochastic m.observed n m.heap m.src hp2
        rw [htr] at hpr
        rw [mkTrace_lengths names r.1 pr hpr, hlen]
  · with_unfolding_all rfl
  · with_unfolding_all rfl
  · with_unfolding_all rfl
  · with_unfolding_all rfl
  · with_unfolding_all rfl

/-- Witness for C9: discarding the rejected write of 7 into the demo
Beta node leaves the heap untouched, and the one-sample run of the demo
model (whose inner Beta draw is rejected) yields a trace whose single
sequence has the requested length. -/
theorem claim_C9_sampling_discards_errors_witness :
    heapSetDiscard demoModel.heap 1 7 = demoModel.heap ∧
    (∀ pr ∈ [(("heads" : String), [(8 : ℚ)])], pr.2.length = 1) := by
  constructor
  · exact claim_C9_sampling_discards_errors.1 demoModel.heap 1 ⟨"p", 1/2, .beta 0 0⟩ 7
      (by with_unfolding_all rfl) (by with_unfolding_all decide)
  · exact claim_C9_sampling_discards_errors.2.1 ℕ cDists demoModel 1
      [("heads", [8])] { demoModel with src := 2 }
      claim_C9_sampling_discards_errors.2.2.1

end GMC
